import Mathlib

/-!
# Verification of the Black-Scholes pricer notebook

This file embeds the `black_scholes` function of
`src/Finance/Black-Scholes.ipynb` into Lean over the real numbers and
proves the behavioural properties stated in the repository's
specification.  The Python function computes

  d1 = (log(S / K) + (r + sigma^2 / 2) * T) / (sigma * sqrt(T))
  d2 = d1 - sigma * sqrt(T)

and returns `S * Phi(d1) - K * exp(-r*T) * Phi(d2)` for a call,
`K * exp(-r*T) * Phi(-d2) - S * Phi(-d1)` for a put, and raises a
`ValueError` for any other option type, where `Phi` (`norm.cdf`) is the
standard normal cumulative distribution function.
-/

open MeasureTheory Set Filter Real Topology

namespace BlackScholes

/-- The standard normal probability density function, the density that
`scipy.stats.norm` uses (mean 0, variance 1). -/
noncomputable def stdNormalPDF (x : ℝ) : ℝ :=
  (Real.sqrt (2 * Real.pi))⁻¹ * Real.exp (-(x ^ 2) / 2)

/-- The standard normal cumulative distribution function, the model of
`scipy.stats.norm.cdf`. -/
noncomputable def Phi (x : ℝ) : ℝ := ∫ t in Iic x, stdNormalPDF t

/-- The error raised by the source when `option_type` is invalid:
`raise ValueError("Option type must be 'call' or 'put'.")`. -/
inductive BSError : Type
  | invalidSide : BSError
deriving DecidableEq

/-- Shallow embedding of the free function `black_scholes` of the
notebook (cell `d91796ef`), with Python's `raise ValueError` modelled as
`Except.error BSError.invalidSide`:

    d1 = (np.log(S / K) + (r + sigma**2 / 2) * T) / (sigma * np.sqrt(T))
    d2 = d1 - sigma * np.sqrt(T)
    if option_type == 'call':
        price = S * norm.cdf(d1) - K * np.exp(-r * T) * norm.cdf(d2)
    elif option_type == 'put':
        price = K * np.exp(-r * T) * norm.cdf(-d2) - S * norm.cdf(-d1)
    else:
        raise ValueError("Option type must be 'call' or 'put'.")
    return price

In the source `option_type` defaults to `'call'`; every use site of the
embedding passes the argument explicitly. -/
noncomputable def black_scholes (S K T r sigma : ℝ) (option_type : String) :
    Except BSError ℝ :=
  let d1 := (Real.log (S / K) + (r + sigma ^ 2 / 2) * T) /
    (sigma * Real.sqrt T)
  let d2 := d1 - sigma * Real.sqrt T
  if option_type = "call" then
    Except.ok (S * Phi d1 - K * Real.exp (-r * T) * Phi d2)
  else if option_type = "put" then
    Except.ok (K * Real.exp (-r * T) * Phi (-d2) - S * Phi (-d1))
  else
    Except.error BSError.invalidSide

/-- The errors the source can raise on the scalar call path: the
explicit `ValueError` of the `else` branch, and the `ZeroDivisionError`
that Python's native scalar division `S / K` raises when `K = 0`. -/
inductive PyError : Type
  | invalidSide : PyError
  | zeroDivision : PyError
deriving DecidableEq

/-- Refinement of `black_scholes` that keeps the host language's partial
scalar division instead of Lean's total one.  The source evaluates
`np.log(S / K)` before the side dispatch; with the native scalars the
notebook passes, `S / K` raises `ZeroDivisionError` when `K = 0`, so no
branch (and no `ValueError`) is ever reached there.  `np.log` and
`np.sqrt` of out-of-domain scalars return `nan`/`-inf` with a warning
rather than raise, so division is the only numeric operation that can
interrupt the body. -/
noncomputable def black_scholes_py (S K T r sigma : ℝ)
    (option_type : String) : Except PyError ℝ :=
  if K = 0 then
    Except.error PyError.zeroDivision
  else
    let d1 := (Real.log (S / K) + (r + sigma ^ 2 / 2) * T) /
      (sigma * Real.sqrt T)
    let d2 := d1 - sigma * Real.sqrt T
    if option_type = "call" then
      Except.ok (S * Phi d1 - K * Real.exp (-r * T) * Phi d2)
    else if option_type = "put" then
      Except.ok (K * Real.exp (-r * T) * Phi (-d2) - S * Phi (-d1))
    else
      Except.error PyError.invalidSide

/-- The `d1` intermediate of the source. -/
noncomputable def bs_d1 (S K T r sigma : ℝ) : ℝ :=
  (Real.log (S / K) + (r + sigma ^ 2 / 2) * T) / (sigma * Real.sqrt T)

/-- The `d2` intermediate of the source. -/
noncomputable def bs_d2 (S K T r sigma : ℝ) : ℝ :=
  bs_d1 S K T r sigma - sigma * Real.sqrt T

/-- The call branch of the source, as a plain real-valued function. -/
noncomputable def bs_call (S K T r sigma : ℝ) : ℝ :=
  S * Phi (bs_d1 S K T r sigma) -
    K * Real.exp (-r * T) * Phi (bs_d2 S K T r sigma)

/-- The put branch of the source, as a plain real-valued function. -/
noncomputable def bs_put (S K T r sigma : ℝ) : ℝ :=
  K * Real.exp (-r * T) * Phi (-bs_d2 S K T r sigma) -
    S * Phi (-bs_d1 S K T r sigma)

/-- Shallow embedding of the redefined `black_scholes` of the example
cell (cell `619dff73`).  That version immediately overwrites its numeric
parameters with fixed local values

    S = 100; K = 100; T = 1; r = 0.05; sigma = 0.2

before computing the same formulas, and the statements after its
`return price` (the recursive `call_price`/`put_price` computations and
the two `print` calls) can never execute, so they contribute nothing to
the function's value and are absent from the embedding. -/
noncomputable def black_scholes_example (S K T r sigma : ℝ)
    (option_type : String) : Except BSError ℝ :=
  let S := (100 : ℝ)
  let K := (100 : ℝ)
  let T := (1 : ℝ)
  let r := (0.05 : ℝ)
  let sigma := (0.2 : ℝ)
  let d1 := (Real.log (S / K) + (r + sigma ^ 2 / 2) * T) /
    (sigma * Real.sqrt T)
  let d2 := d1 - sigma * Real.sqrt T
  if option_type = "call" then
    Except.ok (S * Phi d1 - K * Real.exp (-r * T) * Phi d2)
  else if option_type = "put" then
    Except.ok (K * Real.exp (-r * T) * Phi (-d2) - S * Phi (-d1))
  else
    Except.error BSError.invalidSide

/-- `np.linspace(0.1, 0.5, 100)` from the sensitivity-analysis cell
(cell `cc7f41cf`): 100 evenly spaced values from 0.1 to 0.5 inclusive,
the i-th being `0.1 + i * (0.5 - 0.1) / 99`. -/
noncomputable def sweep_sigmas : List ℝ :=
  (List.range 100).map fun i => 0.1 + (i : ℝ) * ((0.5 - 0.1) / 99)

/-- The volatility sweep of the sensitivity-analysis cell:
`prices = [black_scholes(S, K, T, r, s, 'call') for s in sigmas]`. -/
noncomputable def volatility_sweep (S K T r : ℝ) : List (Except BSError ℝ) :=
  sweep_sigmas.map fun s => black_scholes S K T r s "call"

/-- The Black-Scholes call value normalised by the discounted strike:
with `a = sigma * sqrt T` and log-moneyness `m = log (S / K) + r * T`,
the source's call branch equals `K * exp (-r*T) * normCall a m` and its
put branch equals `S * normCall a (-m)`.  Introduced for the analytic
proofs; it is not itself part of the source. -/
noncomputable def normCall (a m : ℝ) : ℝ :=
  Real.exp m * Phi (m / a + a / 2) - Phi (m / a - a / 2)

lemma stdNormalPDF_eq_gaussian :
    stdNormalPDF = ProbabilityTheory.gaussianPDFReal 0 1 := by
  funext x
  simp [stdNormalPDF, ProbabilityTheory.gaussianPDFReal]

lemma stdNormalPDF_nonneg (x : ℝ) : 0 ≤ stdNormalPDF x := by
  have h1 : 0 ≤ (Real.sqrt (2 * Real.pi))⁻¹ := by positivity
  have h2 : 0 ≤ Real.exp (-(x ^ 2) / 2) := (Real.exp_pos _).le
  exact mul_nonneg h1 h2

lemma stdNormalPDF_pos (x : ℝ) : 0 < stdNormalPDF x := by
  have hpi : 0 < 2 * Real.pi := by positivity
  have h1 : 0 < (Real.sqrt (2 * Real.pi))⁻¹ := by
    exact inv_pos.2 (Real.sqrt_pos.2 hpi)
  exact mul_pos h1 (Real.exp_pos _)

lemma continuous_stdNormalPDF : Continuous stdNormalPDF := by
  unfold stdNormalPDF
  fun_prop

lemma integrable_stdNormalPDF : Integrable stdNormalPDF := by
  rw [stdNormalPDF_eq_gaussian]
  exact ProbabilityTheory.integrable_gaussianPDFReal 0 1

lemma integral_stdNormalPDF : ∫ x, stdNormalPDF x = 1 := by
  rw [stdNormalPDF_eq_gaussian]
  exact ProbabilityTheory.integral_gaussianPDFReal_eq_one 0 one_ne_zero

/-- The exponential-ratio identity between two values of the standard
normal density. -/
lemma stdNormalPDF_eq_mul (x y : ℝ) :
    stdNormalPDF y = stdNormalPDF x * Real.exp ((x ^ 2 - y ^ 2) / 2) := by
  unfold stdNormalPDF
  rw [mul_assoc, ← Real.exp_add]
  ring_nf

lemma Phi_nonneg (x : ℝ) : 0 ≤ Phi x :=
  setIntegral_nonneg measurableSet_Iic fun t _ => stdNormalPDF_nonneg t

lemma Phi_mono : Monotone Phi := by
  intro a b hab
  refine setIntegral_mono_set integrable_stdNormalPDF.integrableOn ?_ ?_
  · exact Eventually.of_forall fun t => stdNormalPDF_nonneg t
  · exact HasSubset.Subset.eventuallyLE (Iic_subset_Iic.2 hab)

lemma Phi_add_Phi_neg (x : ℝ) : Phi x + Phi (-x) = 1 := by
  have heven : ∀ t : ℝ, stdNormalPDF (-t) = stdNormalPDF t := by
    intro t; unfold stdNormalPDF; rw [neg_pow]; ring_nf
  have h1 : Phi x = ∫ t in Ioi (-x), stdNormalPDF t := by
    have := integral_comp_neg_Iic x stdNormalPDF
    calc Phi x = ∫ t in Iic x, stdNormalPDF (-t) := by
          unfold Phi
          exact (setIntegral_congr_fun measurableSet_Iic
            fun t _ => (heven t).symm)
      _ = ∫ t in Ioi (-x), stdNormalPDF t := this
  have h2 : Phi (-x) + (∫ t in Ioi (-x), stdNormalPDF t) = 1 := by
    have hcompl := integral_add_compl (measurableSet_Iic (a := -x))
      integrable_stdNormalPDF
    rw [compl_Iic] at hcompl
    rw [Phi, hcompl, integral_stdNormalPDF]
  rw [h1]
  linarith [h2]

lemma Phi_neg (x : ℝ) : Phi (-x) = 1 - Phi x := by
  have := Phi_add_Phi_neg x
  linarith

lemma Phi_zero : Phi 0 = 1 / 2 := by
  have := Phi_add_Phi_neg 0
  rw [neg_zero] at this
  linarith

lemma Phi_le_one (x : ℝ) : Phi x ≤ 1 := by
  have := Phi_add_Phi_neg x
  have := Phi_nonneg (-x)
  linarith

lemma Phi_sub_Phi (a b : ℝ) :
    Phi b - Phi a = ∫ t in a..b, stdNormalPDF t :=
  intervalIntegral.integral_Iic_sub_Iic
    integrable_stdNormalPDF.integrableOn integrable_stdNormalPDF.integrableOn

lemma Phi_eq_add_intervalIntegral (x : ℝ) :
    Phi x = Phi 0 + ∫ t in (0 : ℝ)..x, stdNormalPDF t := by
  have := Phi_sub_Phi 0 x
  linarith

lemma hasDerivAt_Phi (x : ℝ) : HasDerivAt Phi (stdNormalPDF x) x := by
  have h : HasDerivAt (fun u => ∫ t in (0 : ℝ)..u, stdNormalPDF t)
      (stdNormalPDF x) x := by
    refine intervalIntegral.integral_hasDerivAt_right
      integrable_stdNormalPDF.intervalIntegrable ?_
      continuous_stdNormalPDF.continuousAt
    exact continuous_stdNormalPDF.stronglyMeasurable.stronglyMeasurableAtFilter
  have heq : Phi = fun u => Phi 0 + ∫ t in (0 : ℝ)..u, stdNormalPDF t := by
    funext u; exact Phi_eq_add_intervalIntegral u
  rw [heq]
  exact h.const_add (Phi 0)

lemma continuous_Phi : Continuous Phi :=
  continuous_iff_continuousAt.2 fun x => (hasDerivAt_Phi x).continuousAt

lemma tendsto_Phi_atTop : Tendsto Phi atTop (𝓝 1) := by
  have hU : (⋃ n : ℕ, Iic (n : ℝ)) = univ := by
    refine eq_univ_iff_forall.2 fun x => ?_
    obtain ⟨n, hn⟩ := exists_nat_ge x
    exact mem_iUnion.2 ⟨n, hn⟩
  have hnat : Tendsto (fun n : ℕ => Phi n) atTop (𝓝 1) := by
    have h := tendsto_setIntegral_of_monotone
      (s := fun n : ℕ => Iic ((n : ℝ))) (f := stdNormalPDF)
      (fun n => measurableSet_Iic)
      (fun i j hij => Iic_subset_Iic.2 (Nat.cast_le.2 hij))
      (by rw [hU]; exact integrable_stdNormalPDF.integrableOn)
    rw [hU] at h
    simpa [Phi, setIntegral_univ, integral_stdNormalPDF] using h
  have hbdd : BddAbove (range Phi) := by
    refine ⟨1, ?_⟩
    rintro y ⟨x, rfl⟩
    exact Phi_le_one x
  have hsup : Tendsto Phi atTop (𝓝 (⨆ x, Phi x)) :=
    tendsto_atTop_ciSup Phi_mono hbdd
  have hcomp : Tendsto (fun n : ℕ => Phi n) atTop (𝓝 (⨆ x, Phi x)) :=
    hsup.comp tendsto_natCast_atTop_atTop
  have h1 : (⨆ x, Phi x) = 1 := tendsto_nhds_unique hcomp hnat
  rwa [h1] at hsup

lemma tendsto_Phi_atBot : Tendsto Phi atBot (𝓝 0) := by
  have h : Tendsto (fun x => Phi (-x)) atBot (𝓝 1) :=
    tendsto_Phi_atTop.comp tendsto_neg_atBot_atTop
  have h2 : Tendsto (fun x => 1 - Phi (-x)) atBot (𝓝 (1 - 1)) :=
    tendsto_const_nhds.sub h
  have heq : Phi = fun x => 1 - Phi (-x) := by
    funext x
    have := Phi_neg x
    linarith [Phi_add_Phi_neg x]
  rw [heq]
  simpa using h2

lemma black_scholes_call (S K T r sigma : ℝ) :
    black_scholes S K T r sigma "call" = Except.ok (bs_call S K T r sigma) :=
  rfl

lemma black_scholes_put (S K T r sigma : ℝ) :
    black_scholes S K T r sigma "put" = Except.ok (bs_put S K T r sigma) :=
  rfl

/-- Away from the division-by-zero input the refined embedding agrees
with the total-real one (the total model's only error is the invalid
side). -/
lemma black_scholes_py_of_ne (S K T r sigma : ℝ) (hK : K ≠ 0)
    (option_type : String) :
    black_scholes_py S K T r sigma option_type =
      (black_scholes S K T r sigma option_type).mapError
        fun _ => PyError.invalidSide := by
  unfold black_scholes_py black_scholes
  rw [if_neg hK]
  by_cases hc : option_type = "call"
  · simp [hc, Except.mapError]
  · by_cases hp : option_type = "put"
    · simp [hc, hp, Except.mapError]
    · simp [hc, hp, Except.mapError]

/-- Put-call parity, as an identity of the two branch values; it holds
for every real input because `Phi x + Phi (-x) = 1`. -/
lemma bs_call_sub_bs_put (S K T r sigma : ℝ) :
    bs_call S K T r sigma - bs_put S K T r sigma =
      S - K * Real.exp (-r * T) := by
  unfold bs_call bs_put
  linear_combination S * Phi_add_Phi_neg (bs_d1 S K T r sigma) -
    K * Real.exp (-r * T) * Phi_add_Phi_neg (bs_d2 S K T r sigma)

/-- The density identity behind both vega-positivity and
non-negativity: the two quantiles `m/a + a/2` and `m/a - a/2` satisfy
`pdf(lower) = exp m * pdf(upper)`. -/
lemma stdNormalPDF_lower_eq (a m : ℝ) (ha : a ≠ 0) :
    stdNormalPDF (m / a - a / 2) =
      Real.exp m * stdNormalPDF (m / a + a / 2) := by
  rw [stdNormalPDF_eq_mul (m / a + a / 2) (m / a - a / 2)]
  have h : ((m / a + a / 2) ^ 2 - (m / a - a / 2) ^ 2) / 2 = m := by
    field_simp
    ring
  rw [h]
  ring

lemma hasDerivAt_normCall_m (a : ℝ) (ha : 0 < a) (m : ℝ) :
    HasDerivAt (normCall a) (Real.exp m * Phi (m / a + a / 2)) m := by
  have ha' : a ≠ 0 := ne_of_gt ha
  have h1 : HasDerivAt (fun x : ℝ => x / a + a / 2) (1 / a) m := by
    simpa using ((hasDerivAt_id m).div_const a).add_const (a / 2)
  have h2 : HasDerivAt (fun x : ℝ => x / a - a / 2) (1 / a) m := by
    simpa using ((hasDerivAt_id m).div_const a).sub_const (a / 2)
  have hP1 : HasDerivAt (fun x : ℝ => Phi (x / a + a / 2))
      (stdNormalPDF (m / a + a / 2) * (1 / a)) m :=
    (hasDerivAt_Phi (m / a + a / 2)).comp m h1
  have hP2 : HasDerivAt (fun x : ℝ => Phi (x / a - a / 2))
      (stdNormalPDF (m / a - a / 2) * (1 / a)) m :=
    (hasDerivAt_Phi (m / a - a / 2)).comp m h2
  have hexp : HasDerivAt Real.exp (Real.exp m) m := Real.hasDerivAt_exp m
  have hmul := hexp.mul hP1
  have hfull := hmul.sub hP2
  have heq : Real.exp m * Phi (m / a + a / 2) +
      Real.exp m * (stdNormalPDF (m / a + a / 2) * (1 / a)) -
      stdNormalPDF (m / a - a / 2) * (1 / a) =
      Real.exp m * Phi (m / a + a / 2) := by
    rw [stdNormalPDF_lower_eq a m ha']
    ring
  rw [heq] at hfull
  exact hfull

lemma monotone_normCall_m (a : ℝ) (ha : 0 < a) : Monotone (normCall a) := by
  have hdiff : Differentiable ℝ (normCall a) := fun m =>
    (hasDerivAt_normCall_m a ha m).differentiableAt
  refine monotone_of_deriv_nonneg hdiff fun m => ?_
  rw [(hasDerivAt_normCall_m a ha m).deriv]
  exact mul_nonneg (Real.exp_pos m).le (Phi_nonneg _)

lemma tendsto_normCall_m_atBot (a : ℝ) (ha : 0 < a) :
    Tendsto (normCall a) atBot (𝓝 0) := by
  have hterm1 : Tendsto (fun m => Real.exp m * Phi (m / a + a / 2))
      atBot (𝓝 0) := by
    refine tendsto_of_tendsto_of_tendsto_of_le_of_le
      (g := fun _ : ℝ => (0 : ℝ)) (h := Real.exp)
      tendsto_const_nhds Real.tendsto_exp_atBot ?_ ?_
    · intro m
      exact mul_nonneg (Real.exp_pos m).le (Phi_nonneg _)
    · intro m
      calc Real.exp m * Phi (m / a + a / 2) ≤ Real.exp m * 1 :=
            mul_le_mul_of_nonneg_left (Phi_le_one _) (Real.exp_pos m).le
        _ = Real.exp m := mul_one _
  have harg : Tendsto (fun m : ℝ => m / a - a / 2) atBot atBot := by
    have h1 : Tendsto (fun m : ℝ => m / a) atBot atBot :=
      Tendsto.atBot_div_const ha tendsto_id
    have h2 := tendsto_atBot_add_const_right atBot (-(a / 2)) h1
    refine h2.congr fun m => ?_
    ring
  have hterm2 : Tendsto (fun m => Phi (m / a - a / 2)) atBot (𝓝 0) :=
    tendsto_Phi_atBot.comp harg
  have := hterm1.sub hterm2
  simpa using this

lemma normCall_nonneg (a m : ℝ) (ha : 0 < a) : 0 ≤ normCall a m :=
  (monotone_normCall_m a ha).le_of_tendsto (tendsto_normCall_m_atBot a ha) m

lemma hasDerivAt_normCall_a (m a : ℝ) (ha : 0 < a) :
    HasDerivAt (fun b => normCall b m)
      (Real.exp m * stdNormalPDF (m / a + a / 2)) a := by
  have ha' : a ≠ 0 := ne_of_gt ha
  have hinv : HasDerivAt (fun b : ℝ => m / b) (-(m / a ^ 2)) a := by
    have h := (hasDerivAt_inv ha').const_mul m
    simpa [div_eq_mul_inv, mul_comm, mul_assoc, neg_div] using h
  have h1 : HasDerivAt (fun b : ℝ => m / b + b / 2)
      (-(m / a ^ 2) + 1 / 2) a := by
    have hb : HasDerivAt (fun b : ℝ => b / 2) (1 / 2) a := by
      simpa using (hasDerivAt_id a).div_const 2
    exact hinv.add hb
  have h2 : HasDerivAt (fun b : ℝ => m / b - b / 2)
      (-(m / a ^ 2) - 1 / 2) a := by
    have hb : HasDerivAt (fun b : ℝ => b / 2) (1 / 2) a := by
      simpa using (hasDerivAt_id a).div_const 2
    exact hinv.sub hb
  have hP1 : HasDerivAt (fun b : ℝ => Phi (m / b + b / 2))
      (stdNormalPDF (m / a + a / 2) * (-(m / a ^ 2) + 1 / 2)) a :=
    (hasDerivAt_Phi (m / a + a / 2)).comp a h1
  have hP2 : HasDerivAt (fun b : ℝ => Phi (m / b - b / 2))
      (stdNormalPDF (m / a - a / 2) * (-(m / a ^ 2) - 1 / 2)) a :=
    (hasDerivAt_Phi (m / a - a / 2)).comp a h2
  have hfull := (hP1.const_mul (Real.exp m)).sub hP2
  have heq : Real.exp m *
      (stdNormalPDF (m / a + a / 2) * (-(m / a ^ 2) + 1 / 2)) -
      stdNormalPDF (m / a - a / 2) * (-(m / a ^ 2) - 1 / 2) =
      Real.exp m * stdNormalPDF (m / a + a / 2) := by
    rw [stdNormalPDF_lower_eq a m ha']
    ring
  rw [heq] at hfull
  exact hfull

/-- Vega is non-negative: for fixed log-moneyness, the normalised call
value is monotone in the total volatility `a = sigma * sqrt T` on
`a > 0`. -/
lemma monotoneOn_normCall_a (m : ℝ) :
    MonotoneOn (fun a => normCall a m) (Ioi 0) := by
  have hint : interior (Ioi (0 : ℝ)) = Ioi 0 := interior_Ioi
  refine monotoneOn_of_deriv_nonneg (convex_Ioi 0) ?_ ?_ ?_
  · intro a haI
    exact (hasDerivAt_normCall_a m a haI).continuousAt.continuousWithinAt
  · intro a haI
    rw [hint] at haI
    exact (hasDerivAt_normCall_a m a haI).differentiableAt.differentiableWithinAt
  · intro a haI
    rw [hint] at haI
    rw [(hasDerivAt_normCall_a m a haI).deriv]
    exact mul_nonneg (Real.exp_pos m).le (stdNormalPDF_nonneg _)

lemma bs_d1_eq (S K T r sigma : ℝ) (hT : 0 < T) (hsig : 0 < sigma) :
    bs_d1 S K T r sigma =
      (Real.log (S / K) + r * T) / (sigma * Real.sqrt T) +
        sigma * Real.sqrt T / 2 := by
  have hsq : Real.sqrt T * Real.sqrt T = T := Real.mul_self_sqrt hT.le
  have ha : sigma * Real.sqrt T ≠ 0 :=
    ne_of_gt (mul_pos hsig (Real.sqrt_pos.2 hT))
  unfold bs_d1
  rw [show Real.log (S / K) + (r + sigma ^ 2 / 2) * T =
    Real.log (S / K) + r * T + sigma ^ 2 / 2 * T by ring, add_div]
  congr 1
  rw [div_eq_iff ha]
  linear_combination (-(sigma ^ 2) / 2) * hsq

lemma bs_d2_eq (S K T r sigma : ℝ) (hT : 0 < T) (hsig : 0 < sigma) :
    bs_d2 S K T r sigma =
      (Real.log (S / K) + r * T) / (sigma * Real.sqrt T) -
        sigma * Real.sqrt T / 2 := by
  unfold bs_d2
  rw [bs_d1_eq S K T r sigma hT hsig]
  ring

lemma bs_call_eq_normCall (S K T r sigma : ℝ) (hS : 0 < S) (hK : 0 < K)
    (hT : 0 < T) (hsig : 0 < sigma) :
    bs_call S K T r sigma =
      K * Real.exp (-r * T) *
        normCall (sigma * Real.sqrt T) (Real.log (S / K) + r * T) := by
  have ha : 0 < sigma * Real.sqrt T := mul_pos hsig (Real.sqrt_pos.2 hT)
  have hexpm : Real.exp (Real.log (S / K) + r * T) =
      S / K * Real.exp (r * T) := by
    rw [Real.exp_add, Real.exp_log (div_pos hS hK)]
  have hKe : K * Real.exp (-r * T) *
      Real.exp (Real.log (S / K) + r * T) = S := by
    rw [hexpm, neg_mul, Real.exp_neg]
    field_simp
    ring
  unfold bs_call normCall
  rw [bs_d1_eq S K T r sigma hT hsig, bs_d2_eq S K T r sigma hT hsig]
  linear_combination
    (-Phi ((Real.log (S / K) + r * T) / (sigma * Real.sqrt T) +
      sigma * Real.sqrt T / 2)) * hKe

lemma bs_put_eq_normCall (S K T r sigma : ℝ) (hS : 0 < S) (hK : 0 < K)
    (hT : 0 < T) (hsig : 0 < sigma) :
    bs_put S K T r sigma =
      S * normCall (sigma * Real.sqrt T) (-(Real.log (S / K) + r * T)) := by
  have ha : 0 < sigma * Real.sqrt T := mul_pos hsig (Real.sqrt_pos.2 hT)
  have hexpm : Real.exp (Real.log (S / K) + r * T) =
      S / K * Real.exp (r * T) := by
    rw [Real.exp_add, Real.exp_log (div_pos hS hK)]
  have hSe : S * Real.exp (-(Real.log (S / K) + r * T)) =
      K * Real.exp (-r * T) := by
    rw [Real.exp_neg, hexpm, neg_mul, Real.exp_neg]
    rw [mul_inv]
    field_simp
    ring
  have harg1 : -(Real.log (S / K) + r * T) / (sigma * Real.sqrt T) +
      sigma * Real.sqrt T / 2 =
      -((Real.log (S / K) + r * T) / (sigma * Real.sqrt T) -
        sigma * Real.sqrt T / 2) := by
    ring
  have harg2 : -(Real.log (S / K) + r * T) / (sigma * Real.sqrt T) -
      sigma * Real.sqrt T / 2 =
      -((Real.log (S / K) + r * T) / (sigma * Real.sqrt T) +
        sigma * Real.sqrt T / 2) := by
    ring
  unfold bs_put normCall
  rw [bs_d1_eq S K T r sigma hT hsig, bs_d2_eq S K T r sigma hT hsig,
    harg1, harg2]
  linear_combination
    (-Phi (-((Real.log (S / K) + r * T) / (sigma * Real.sqrt T) -
      sigma * Real.sqrt T / 2))) * hSe

lemma tendsto_sqrt_zero_right :
    Tendsto (fun T : ℝ => Real.sqrt T) (𝓝[>] 0) (𝓝 0) := by
  have h := (Real.continuous_sqrt.tendsto 0).mono_left
    (nhdsWithin_le_nhds (s := Ioi (0 : ℝ)))
  simpa using h

lemma tendsto_exp_neg_rate_zero_right (r : ℝ) :
    Tendsto (fun T : ℝ => Real.exp (-r * T)) (𝓝[>] 0) (𝓝 1) := by
  have hc : Continuous fun T : ℝ => Real.exp (-r * T) := by fun_prop
  have h := (hc.tendsto 0).mono_left (nhdsWithin_le_nhds (s := Ioi (0 : ℝ)))
  simpa using h

lemma tendsto_vol_sqrt_zero_right (sigma : ℝ) (hsig : 0 < sigma) :
    Tendsto (fun T : ℝ => sigma * Real.sqrt T) (𝓝[>] 0) (𝓝[>] 0) := by
  rw [tendsto_nhdsWithin_iff]
  constructor
  · simpa using tendsto_sqrt_zero_right.const_mul sigma
  · filter_upwards [self_mem_nhdsWithin] with T hT
    exact mul_pos hsig (Real.sqrt_pos.2 hT)

lemma tendsto_bs_d1_atTop (S K r sigma : ℝ) (hsig : 0 < sigma)
    (hlog : 0 < Real.log (S / K)) :
    Tendsto (fun T => bs_d1 S K T r sigma) (𝓝[>] 0) atTop := by
  have hnum : Tendsto (fun T : ℝ =>
      Real.log (S / K) + (r + sigma ^ 2 / 2) * T) (𝓝[>] 0)
      (𝓝 (Real.log (S / K))) := by
    have hc : Continuous fun T : ℝ =>
        Real.log (S / K) + (r + sigma ^ 2 / 2) * T := by fun_prop
    have h := (hc.tendsto 0).mono_left
      (nhdsWithin_le_nhds (s := Ioi (0 : ℝ)))
    simpa using h
  have hinv : Tendsto (fun T : ℝ => (sigma * Real.sqrt T)⁻¹) (𝓝[>] 0)
      atTop :=
    tendsto_inv_zero_atTop.comp (tendsto_vol_sqrt_zero_right sigma hsig)
  have h := Filter.Tendsto.mul_atTop hlog hnum hinv
  refine h.congr fun T => ?_
  rw [bs_d1]
  ring

lemma tendsto_bs_d1_atBot (S K r sigma : ℝ) (hsig : 0 < sigma)
    (hlog : Real.log (S / K) < 0) :
    Tendsto (fun T => bs_d1 S K T r sigma) (𝓝[>] 0) atBot := by
  have hnum : Tendsto (fun T : ℝ =>
      Real.log (S / K) + (r + sigma ^ 2 / 2) * T) (𝓝[>] 0)
      (𝓝 (Real.log (S / K))) := by
    have hc : Continuous fun T : ℝ =>
        Real.log (S / K) + (r + sigma ^ 2 / 2) * T := by fun_prop
    have h := (hc.tendsto 0).mono_left
      (nhdsWithin_le_nhds (s := Ioi (0 : ℝ)))
    simpa using h
  have hinv : Tendsto (fun T : ℝ => (sigma * Real.sqrt T)⁻¹) (𝓝[>] 0)
      atTop :=
    tendsto_inv_zero_atTop.comp (tendsto_vol_sqrt_zero_right sigma hsig)
  have h := Filter.Tendsto.neg_mul_atTop hlog hnum hinv
  refine h.congr fun T => ?_
  rw [bs_d1]
  ring

lemma tendsto_bs_call_maturity (S K r sigma : ℝ) (hS : 0 < S) (hK : 0 < K)
    (hsig : 0 < sigma) :
    Tendsto (fun T => bs_call S K T r sigma) (𝓝[>] 0)
      (𝓝 (max (S - K) 0)) := by
  have hsT : Tendsto (fun T : ℝ => sigma * Real.sqrt T) (𝓝[>] 0)
      (𝓝 0) := by
    simpa using tendsto_sqrt_zero_right.const_mul sigma
  have hexp := tendsto_exp_neg_rate_zero_right r
  rcases lt_trichotomy K S with hKS | hKS | hKS
  · -- in the money: d1, d2 → +∞, Phi → 1, call → S - K
    have hlog : 0 < Real.log (S / K) :=
      Real.log_pos ((one_lt_div hK).2 hKS)
    have hd1 := tendsto_bs_d1_atTop S K r sigma hsig hlog
    have hd2 : Tendsto (fun T => bs_d2 S K T r sigma) (𝓝[>] 0) atTop := by
      have h := Filter.Tendsto.atTop_add hd1 hsT.neg
      refine h.congr fun T => ?_
      rw [bs_d2, sub_eq_add_neg]
    have hP1 : Tendsto (fun T => Phi (bs_d1 S K T r sigma)) (𝓝[>] 0)
        (𝓝 1) := tendsto_Phi_atTop.comp hd1
    have hP2 : Tendsto (fun T => Phi (bs_d2 S K T r sigma)) (𝓝[>] 0)
        (𝓝 1) := tendsto_Phi_atTop.comp hd2
    have hmain := (hP1.const_mul S).sub ((hexp.const_mul K).mul hP2)
    rw [max_eq_left (by linarith)]
    have hval : (S * 1 - K * 1 * 1 : ℝ) = S - K := by ring
    rw [← hval]
    exact hmain.congr fun T => rfl
  · -- at the money: d1, d2 → 0, Phi → 1/2, call → (S - K)/2 = 0
    have hSK : S / K = 1 := by rw [hKS]; exact div_self (ne_of_gt hS)
    have hlog : Real.log (S / K) = 0 := by rw [hSK, Real.log_one]
    have hd1 : Tendsto (fun T => bs_d1 S K T r sigma) (𝓝[>] 0)
        (𝓝 0) := by
      have haux : Tendsto (fun T : ℝ =>
          (r + sigma ^ 2 / 2) / sigma * Real.sqrt T) (𝓝[>] 0) (𝓝 0) := by
        simpa using tendsto_sqrt_zero_right.const_mul
          ((r + sigma ^ 2 / 2) / sigma)
      refine Tendsto.congr' ?_ haux
      filter_upwards [self_mem_nhdsWithin] with T hT
      have hT' : (0 : ℝ) < T := hT
      have hsq : Real.sqrt T * Real.sqrt T = T := Real.mul_self_sqrt hT'.le
      have hs : Real.sqrt T ≠ 0 := ne_of_gt (Real.sqrt_pos.2 hT')
      rw [bs_d1, hlog, zero_add]
      field_simp
      linear_combination (4 * (r + sigma ^ 2 / 2) * sigma) * hsq
    have hd2 : Tendsto (fun T => bs_d2 S K T r sigma) (𝓝[>] 0)
        (𝓝 0) := by
      have h := hd1.sub hsT
      rw [sub_zero] at h
      exact h.congr fun T => rfl
    have hP1 : Tendsto (fun T => Phi (bs_d1 S K T r sigma)) (𝓝[>] 0)
        (𝓝 (1 / 2)) := by
      have h := (continuous_Phi.tendsto 0).comp hd1
      rwa [Phi_zero] at h
    have hP2 : Tendsto (fun T => Phi (bs_d2 S K T r sigma)) (𝓝[>] 0)
        (𝓝 (1 / 2)) := by
      have h := (continuous_Phi.tendsto 0).comp hd2
      rwa [Phi_zero] at h
    have hmain := (hP1.const_mul S).sub ((hexp.const_mul K).mul hP2)
    have hlim : S * (1 / 2) - K * 1 * (1 / 2) = max (S - K) 0 := by
      rw [hKS, max_eq_right (by linarith)]
      ring
    rw [← hlim]
    exact hmain.congr fun T => rfl
  · -- out of the money: d1, d2 → -∞, Phi → 0, call → 0
    have hlog : Real.log (S / K) < 0 :=
      Real.log_neg (div_pos hS hK) ((div_lt_one hK).2 hKS)
    have hd1 := tendsto_bs_d1_atBot S K r sigma hsig hlog
    have hd2 : Tendsto (fun T => bs_d2 S K T r sigma) (𝓝[>] 0) atBot := by
      have h := Filter.Tendsto.atBot_add hd1 hsT.neg
      refine h.congr fun T => ?_
      rw [bs_d2, sub_eq_add_neg]
    have hP1 : Tendsto (fun T => Phi (bs_d1 S K T r sigma)) (𝓝[>] 0)
        (𝓝 0) := tendsto_Phi_atBot.comp hd1
    have hP2 : Tendsto (fun T => Phi (bs_d2 S K T r sigma)) (𝓝[>] 0)
        (𝓝 0) := tendsto_Phi_atBot.comp hd2
    have hmain := (hP1.const_mul S).sub ((hexp.const_mul K).mul hP2)
    rw [max_eq_right (by linarith)]
    have h2 : Tendsto (fun T => bs_call S K T r sigma) (𝓝[>] 0)
        (𝓝 (S * 0 - K * 1 * 0)) := hmain.congr fun T => rfl
    simpa using h2

lemma tendsto_bs_put_maturity (S K r sigma : ℝ) (hS : 0 < S) (hK : 0 < K)
    (hsig : 0 < sigma) :
    Tendsto (fun T => bs_put S K T r sigma) (𝓝[>] 0)
      (𝓝 (max (K - S) 0)) := by
  have hcall := tendsto_bs_call_maturity S K r sigma hS hK hsig
  have hexp := tendsto_exp_neg_rate_zero_right r
  have hconst : Tendsto (fun _ : ℝ => S) (𝓝[>] (0 : ℝ)) (𝓝 S) :=
    tendsto_const_nhds
  have hmain := (hcall.sub hconst).add (hexp.const_mul K)
  have hlim : max (S - K) 0 - S + K * 1 = max (K - S) 0 := by
    rcases le_total S K with h | h
    · rw [max_eq_right (by linarith), max_eq_left (by linarith)]
      ring
    · rw [max_eq_left (by linarith), max_eq_right (by linarith)]
      ring
  rw [← hlim]
  refine hmain.congr fun T => ?_
  have := bs_call_sub_bs_put S K T r sigma
  linarith

lemma exp_neg_ge_linear (u : ℝ) : 1 - u ≤ Real.exp (-u) := by
  have := Real.add_one_le_exp (-u)
  linarith

lemma exp_neg_quadratic_le (u : ℝ) (hu : 0 ≤ u) :
    Real.exp (-u) ≤ 1 - u + u ^ 2 / 2 := by
  have hsum := Real.sum_le_exp_of_nonneg hu 4
  have hs : ∑ i ∈ Finset.range 4, u ^ i / (Nat.factorial i : ℝ) =
      1 + u + u ^ 2 / 2 + u ^ 3 / 6 := by
    simp [Finset.sum_range_succ, Nat.factorial]
  rw [hs] at hsum
  have hpos : (0 : ℝ) < Real.exp u := Real.exp_pos u
  have hP : (0 : ℝ) < 1 - u + u ^ 2 / 2 := by nlinarith [sq_nonneg (u - 1)]
  rw [Real.exp_neg, inv_eq_one_div, div_le_iff hpos]
  have hmul := mul_le_mul_of_nonneg_left hsum hP.le
  nlinarith [pow_nonneg hu 3, pow_nonneg hu 4, pow_nonneg hu 5]

lemma stdNormalPDF_le_poly (t : ℝ) :
    stdNormalPDF t ≤
      (Real.sqrt (2 * Real.pi))⁻¹ * (1 - t ^ 2 / 2 + t ^ 4 / 8) := by
  unfold stdNormalPDF
  have h1 : Real.exp (-(t ^ 2) / 2) ≤ 1 - t ^ 2 / 2 + t ^ 4 / 8 := by
    have h := exp_neg_quadratic_le (t ^ 2 / 2) (by positivity)
    have harg : -(t ^ 2) / 2 = -(t ^ 2 / 2) := by ring
    rw [harg]
    calc Real.exp (-(t ^ 2 / 2)) ≤ 1 - t ^ 2 / 2 + (t ^ 2 / 2) ^ 2 / 2 := h
      _ = 1 - t ^ 2 / 2 + t ^ 4 / 8 := by ring
  exact mul_le_mul_of_nonneg_left h1 (by positivity)

lemma poly_le_stdNormalPDF (t : ℝ) :
    (Real.sqrt (2 * Real.pi))⁻¹ * (1 - t ^ 2 / 2) ≤ stdNormalPDF t := by
  unfold stdNormalPDF
  have h1 : 1 - t ^ 2 / 2 ≤ Real.exp (-(t ^ 2) / 2) := by
    have h := exp_neg_ge_linear (t ^ 2 / 2)
    have harg : -(t ^ 2) / 2 = -(t ^ 2 / 2) := by ring
    rw [harg]
    linarith
  exact mul_le_mul_of_nonneg_left h1 (by positivity)

lemma Phi_le_poly (x : ℝ) (hx : 0 ≤ x) :
    Phi x ≤ 1 / 2 +
      (Real.sqrt (2 * Real.pi))⁻¹ * (x - x ^ 3 / 6 + x ^ 5 / 40) := by
  rw [Phi_eq_add_intervalIntegral, Phi_zero]
  have hfi : IntervalIntegrable stdNormalPDF volume 0 x :=
    integrable_stdNormalPDF.intervalIntegrable
  have hgi : IntervalIntegrable (fun t : ℝ =>
      (Real.sqrt (2 * Real.pi))⁻¹ * (1 - t ^ 2 / 2 + t ^ 4 / 8))
      volume 0 x :=
    Continuous.intervalIntegrable (by fun_prop) 0 x
  have hmono := intervalIntegral.integral_mono_on hx hfi hgi
    fun t _ => stdNormalPDF_le_poly t
  have hcomp : ∫ t in (0 : ℝ)..x,
      (Real.sqrt (2 * Real.pi))⁻¹ * (1 - t ^ 2 / 2 + t ^ 4 / 8) =
      (Real.sqrt (2 * Real.pi))⁻¹ * (x - x ^ 3 / 6 + x ^ 5 / 40) := by
    rw [intervalIntegral.integral_const_mul]
    congr 1
    have h1 : IntervalIntegrable (fun _ : ℝ => (1 : ℝ)) volume 0 x :=
      continuous_const.intervalIntegrable 0 x
    have h2 : IntervalIntegrable (fun t : ℝ => t ^ 2 / 2) volume 0 x :=
      Continuous.intervalIntegrable (by fun_prop) 0 x
    have h3 : IntervalIntegrable (fun t : ℝ => t ^ 4 / 8) volume 0 x :=
      Continuous.intervalIntegrable (by fun_prop) 0 x
    rw [intervalIntegral.integral_add (h1.sub h2) h3,
      intervalIntegral.integral_sub h1 h2,
      intervalIntegral.integral_div, intervalIntegral.integral_div]
    simp
    ring
  linarith

lemma poly_le_Phi (x : ℝ) (hx : 0 ≤ x) :
    1 / 2 + (Real.sqrt (2 * Real.pi))⁻¹ * (x - x ^ 3 / 6) ≤ Phi x := by
  rw [Phi_eq_add_intervalIntegral, Phi_zero]
  have hfi : IntervalIntegrable stdNormalPDF volume 0 x :=
    integrable_stdNormalPDF.intervalIntegrable
  have hgi : IntervalIntegrable (fun t : ℝ =>
      (Real.sqrt (2 * Real.pi))⁻¹ * (1 - t ^ 2 / 2)) volume 0 x :=
    Continuous.intervalIntegrable (by fun_prop) 0 x
  have hmono := intervalIntegral.integral_mono_on hx hgi hfi
    fun t _ => poly_le_stdNormalPDF t
  have hcomp : ∫ t in (0 : ℝ)..x,
      (Real.sqrt (2 * Real.pi))⁻¹ * (1 - t ^ 2 / 2) =
      (Real.sqrt (2 * Real.pi))⁻¹ * (x - x ^ 3 / 6) := by
    rw [intervalIntegral.integral_const_mul]
    congr 1
    have h1 : IntervalIntegrable (fun _ : ℝ => (1 : ℝ)) volume 0 x :=
      continuous_const.intervalIntegrable 0 x
    have h2 : IntervalIntegrable (fun t : ℝ => t ^ 2 / 2) volume 0 x :=
      Continuous.intervalIntegrable (by fun_prop) 0 x
    rw [intervalIntegral.integral_sub h1 h2, intervalIntegral.integral_div]
    simp
    ring
  linarith

lemma sqrt_two_pi_gt : (2.506628 : ℝ) < Real.sqrt (2 * Real.pi) := by
  have hpi := Real.pi_gt_d6
  rw [show (2.506628 : ℝ) = Real.sqrt (2.506628 ^ 2) from
    (Real.sqrt_sq (by norm_num)).symm]
  apply Real.sqrt_lt_sqrt (by norm_num)
  nlinarith

lemma sqrt_two_pi_lt : Real.sqrt (2 * Real.pi) < (2.506630 : ℝ) := by
  have hpi := Real.pi_lt_d6
  have hnn : (0 : ℝ) ≤ 2 * Real.pi := by positivity
  rw [show (2.506630 : ℝ) = Real.sqrt (2.506630 ^ 2) from
    (Real.sqrt_sq (by norm_num)).symm]
  apply Real.sqrt_lt_sqrt hnn
  nlinarith

lemma Phi_bounds_at (x lo hi : ℝ) (hx : 0 ≤ x)
    (hlo : lo ≤ 1 / 2 + (x - x ^ 3 / 6) / 2.506630)
    (hhi : 1 / 2 + (x - x ^ 3 / 6 + x ^ 5 / 40) / 2.506628 ≤ hi)
    (hc1 : 0 ≤ x - x ^ 3 / 6) (hc2 : 0 ≤ x - x ^ 3 / 6 + x ^ 5 / 40) :
    lo ≤ Phi x ∧ Phi x ≤ hi := by
  have hsl := sqrt_two_pi_gt
  have hsu := sqrt_two_pi_lt
  have hspos : (0 : ℝ) < Real.sqrt (2 * Real.pi) := by linarith
  constructor
  · have h1 := poly_le_Phi x hx
    have h2 : (x - x ^ 3 / 6) / 2.506630 ≤
        (x - x ^ 3 / 6) / Real.sqrt (2 * Real.pi) :=
      div_le_div_of_nonneg_left hc1 hspos hsu.le
    rw [inv_mul_eq_div] at h1
    linarith
  · have h1 := Phi_le_poly x hx
    have h2 : (x - x ^ 3 / 6 + x ^ 5 / 40) / Real.sqrt (2 * Real.pi) ≤
        (x - x ^ 3 / 6 + x ^ 5 / 40) / 2.506628 :=
      div_le_div_of_nonneg_left hc2 (by norm_num) hsl.le
    rw [inv_mul_eq_div] at h1
    linarith

lemma Phi_bounds_d1 :
    (0.636778 : ℝ) ≤ Phi 0.35 ∧ Phi 0.35 ≤ (0.636832 : ℝ) := by
  refine Phi_bounds_at 0.35 0.636778 0.636832 (by norm_num) ?_ ?_ ?_ ?_ <;>
    norm_num

lemma Phi_bounds_d2 :
    (0.559616 : ℝ) ≤ Phi 0.15 ∧ Phi 0.15 ≤ (0.559618 : ℝ) := by
  refine Phi_bounds_at 0.15 0.559616 0.559618 (by norm_num) ?_ ?_ ?_ ?_ <;>
    norm_num

lemma exp_neg_rate_bounds :
    (0.951229 : ℝ) ≤ Real.exp (-(1 / 20 : ℝ)) ∧
      Real.exp (-(1 / 20 : ℝ)) ≤ (0.951230 : ℝ) := by
  have hlb : (1 : ℝ) + 1 / 20 + 1 / 800 + 1 / 48000 ≤ Real.exp (1 / 20) := by
    have hsum := Real.sum_le_exp_of_nonneg (by norm_num : (0 : ℝ) ≤ 1 / 20) 4
    have hs : ∑ i ∈ Finset.range 4, (1 / 20 : ℝ) ^ i / (Nat.factorial i : ℝ) =
        1 + 1 / 20 + 1 / 800 + 1 / 48000 := by
      simp [Finset.sum_range_succ, Nat.factorial]
      norm_num
    rwa [hs] at hsum
  have hub : Real.exp (1 / 20) ≤
      (1 : ℝ) + 1 / 20 + 1 / 800 + 1 / 48000 + 1 / 3072000 := by
    have h := Real.exp_bound' (by norm_num : (0 : ℝ) ≤ 1 / 20)
      (by norm_num : (1 / 20 : ℝ) ≤ 1) (by norm_num : 0 < 4)
    norm_num [Finset.sum_range_succ, Nat.factorial] at h
    linarith
  have hpos : (0 : ℝ) < Real.exp (1 / 20) := Real.exp_pos _
  constructor
  · rw [Real.exp_neg]
    rw [show (0.951229 : ℝ) = (1 / 0.951229)⁻¹ by norm_num]
    apply inv_le_inv_of_le hpos
    calc Real.exp (1 / 20) ≤
        (1 : ℝ) + 1 / 20 + 1 / 800 + 1 / 48000 + 1 / 3072000 := hub
      _ ≤ 1 / 0.951229 := by norm_num
  · rw [Real.exp_neg]
    rw [show (0.951230 : ℝ) = (1 / 0.951230)⁻¹ by norm_num]
    apply inv_le_inv_of_le (by norm_num)
    calc (1 / 0.951230 : ℝ) ≤ 1 + 1 / 20 + 1 / 800 + 1 / 48000 := by norm_num
      _ ≤ Real.exp (1 / 20) := hlb

lemma bs_d1_concrete : bs_d1 100 100 1 0.05 0.2 = 0.35 := by
  unfold bs_d1
  rw [show (100 : ℝ) / 100 = 1 by norm_num, Real.log_one, Real.sqrt_one]
  norm_num

lemma bs_d2_concrete : bs_d2 100 100 1 0.05 0.2 = 0.15 := by
  unfold bs_d2
  rw [bs_d1_concrete, Real.sqrt_one]
  norm_num

lemma bs_call_tight_bounds :
    (10.4452 : ℝ) ≤ bs_call 100 100 1 0.05 0.2 ∧
      bs_call 100 100 1 0.05 0.2 ≤ (10.4510 : ℝ) := by
  have hP1 := Phi_bounds_d1
  have hP2 := Phi_bounds_d2
  have hE := exp_neg_rate_bounds
  have hexp_arg : -(0.05 : ℝ) * 1 = -(1 / 20 : ℝ) := by norm_num
  have hc : bs_call 100 100 1 0.05 0.2 =
      100 * Phi 0.35 - 100 * Real.exp (-(1 / 20 : ℝ)) * Phi 0.15 := by
    unfold bs_call
    rw [bs_d1_concrete, bs_d2_concrete, hexp_arg]
  rw [hc]
  have hprod_lo : (0.951229 : ℝ) * 0.559616 ≤
      Real.exp (-(1 / 20 : ℝ)) * Phi 0.15 :=
    mul_le_mul hE.1 hP2.1 (by norm_num) (Real.exp_pos _).le
  have hprod_hi : Real.exp (-(1 / 20 : ℝ)) * Phi 0.15 ≤
      (0.951230 : ℝ) * 0.559618 := by
    refine mul_le_mul hE.2 hP2.2 ?_ (by norm_num)
    linarith [hP2.1]
  constructor <;> nlinarith [hP1.1, hP1.2]

lemma bs_call_concrete_bounds :
    |bs_call 100 100 1 0.05 0.2 - 10.45| ≤ 0.01 := by
  have h := bs_call_tight_bounds
  rw [abs_le]
  constructor <;> linarith [h.1, h.2]

lemma bs_put_concrete_bounds :
    |bs_put 100 100 1 0.05 0.2 - 5.57| ≤ 0.01 := by
  have hcall := bs_call_tight_bounds
  have hE := exp_neg_rate_bounds
  have hpar := bs_call_sub_bs_put 100 100 1 0.05 0.2
  have hexp_arg : -(0.05 : ℝ) * 1 = -(1 / 20 : ℝ) := by norm_num
  rw [hexp_arg] at hpar
  rw [abs_le]
  constructor <;> nlinarith [hE.1, hE.2, hcall.1, hcall.2]

/-- C1: for every input with positive spot, strike, maturity and
volatility, the price operation computes
`d1 = (ln(spot/strike) + (rate + volatility^2/2) * maturity) /
(volatility * sqrt maturity)` and `d2 = d1 - volatility * sqrt maturity`
and returns `spot * Phi d1 - strike * exp(-rate*maturity) * Phi d2` for a
call and `strike * exp(-rate*maturity) * Phi (-d2) - spot * Phi (-d1)`
for a put, `Phi` being the standard normal CDF. -/
theorem claim_C1_price_formula (spot strike maturity rate volatility : ℝ)
    (hS : 0 < spot) (hK : 0 < strike) (hT : 0 < maturity)
    (hv : 0 < volatility) :
    black_scholes spot strike maturity rate volatility "call" =
      Except.ok (spot * Phi ((Real.log (spot / strike) +
          (rate + volatility ^ 2 / 2) * maturity) /
          (volatility * Real.sqrt maturity)) -
        strike * Real.exp (-rate * maturity) *
          Phi ((Real.log (spot / strike) +
            (rate + volatility ^ 2 / 2) * maturity) /
            (volatility * Real.sqrt maturity) -
            volatility * Real.sqrt maturity)) ∧
    black_scholes spot strike maturity rate volatility "put" =
      Except.ok (strike * Real.exp (-rate * maturity) *
          Phi (-((Real.log (spot / strike) +
            (rate + volatility ^ 2 / 2) * maturity) /
            (volatility * Real.sqrt maturity) -
            volatility * Real.sqrt maturity)) -
        spot * Phi (-((Real.log (spot / strike) +
          (rate + volatility ^ 2 / 2) * maturity) /
          (volatility * Real.sqrt maturity)))) :=
  ⟨rfl, rfl⟩

theorem claim_C1_price_formula_witness :
    black_scholes 1 1 1 0 1 "call" =
      Except.ok ((1 : ℝ) * Phi ((Real.log ((1 : ℝ) / 1) +
          ((0 : ℝ) + 1 ^ 2 / 2) * 1) / (1 * Real.sqrt 1)) -
        1 * Real.exp (-(0 : ℝ) * 1) *
          Phi ((Real.log ((1 : ℝ) / 1) + ((0 : ℝ) + 1 ^ 2 / 2) * 1) /
            (1 * Real.sqrt 1) - 1 * Real.sqrt 1)) ∧
    black_scholes 1 1 1 0 1 "put" =
      Except.ok ((1 : ℝ) * Real.exp (-(0 : ℝ) * 1) *
          Phi (-((Real.log ((1 : ℝ) / 1) + ((0 : ℝ) + 1 ^ 2 / 2) * 1) /
            (1 * Real.sqrt 1) - 1 * Real.sqrt 1)) -
        1 * Phi (-((Real.log ((1 : ℝ) / 1) + ((0 : ℝ) + 1 ^ 2 / 2) * 1) /
          (1 * Real.sqrt 1)))) :=
  claim_C1_price_formula 1 1 1 0 1 one_pos one_pos one_pos one_pos

/-- C2: for every input satisfying the invariants, the call price minus
the put price at the same parameters equals
`spot - strike * exp(-rate * maturity)` (put-call parity), exactly in
real arithmetic. -/
theorem claim_C2_put_call_parity (spot strike maturity rate volatility : ℝ)
    (hS : 0 < spot) (hK : 0 < strike) (hT : 0 < maturity)
    (hv : 0 < volatility) (pc pp : ℝ)
    (hc : black_scholes spot strike maturity rate volatility "call" =
      Except.ok pc)
    (hp : black_scholes spot strike maturity rate volatility "put" =
      Except.ok pp) :
    pc - pp = spot - strike * Real.exp (-rate * maturity) := by
  rw [black_scholes_call, Except.ok.injEq] at hc
  rw [black_scholes_put, Except.ok.injEq] at hp
  subst hc
  subst hp
  exact bs_call_sub_bs_put spot strike maturity rate volatility

theorem claim_C2_put_call_parity_witness :
    bs_call 1 1 1 0 1 - bs_put 1 1 1 0 1 =
      1 - 1 * Real.exp (-(0 : ℝ) * 1) :=
  claim_C2_put_call_parity 1 1 1 0 1 one_pos one_pos one_pos one_pos
    (bs_call 1 1 1 0 1) (bs_put 1 1 1 0 1) rfl rfl

/-- C3 counterexample: the claim's unrestricted "fails with InvalidSide
iff side is neither call nor put" is false of the source at
`strike = 0`: there Python raises `ZeroDivisionError` at `S / K`
before the side dispatch, so the invalid side `"straddle"` does not
fail with `InvalidSide` at `price(100, 0, 1, 0.05, 0.2, "straddle")`. -/
theorem claim_C3_invalid_side_counterexample :
    ("straddle" ≠ "call" ∧ "straddle" ≠ "put") ∧
    black_scholes_py 100 0 1 0.05 0.2 "straddle" ≠
      Except.error PyError.invalidSide ∧
    black_scholes_py 100 0 1 0.05 0.2 "straddle" =
      Except.error PyError.zeroDivision := by
  have hzd : black_scholes_py 100 0 1 0.05 0.2 "straddle" =
      Except.error PyError.zeroDivision := by
    simp [black_scholes_py]
  refine ⟨⟨by decide, by decide⟩, ?_, hzd⟩
  rw [hzd]
  intro h
  exact PyError.noConfusion (Except.error.inj h)

/-- C3 (amended): for every input whose strike is non-zero — so that
the division `S / K` the source performs before the side dispatch is
defined — the price operation fails with `InvalidSide` exactly when the
side string is neither `"call"` nor `"put"`, uniformly in the numeric
arguments (the failure carries no numeric payload, so no sentinel value
and no partial result is observable); in particular
`price(100, 100, 1, 0.05, 0.2, "straddle")` fails with `InvalidSide`.
At `strike = 0` the operation instead fails with `ZeroDivisionError`
before the side check. -/
theorem claim_C3_invalid_side (S K T r sigma : ℝ) (hK : K ≠ 0)
    (side : String) :
    (black_scholes_py S K T r sigma side =
        Except.error PyError.invalidSide ↔
      side ≠ "call" ∧ side ≠ "put") ∧
    black_scholes_py 100 100 1 0.05 0.2 "straddle" =
      Except.error PyError.invalidSide := by
  constructor
  · unfold black_scholes_py
    rw [if_neg hK]
    by_cases hc : side = "call"
    · simp [hc]
    · by_cases hp : side = "put"
      · simp [hp]
      · simp [hc, hp]
  · unfold black_scholes_py
    rw [if_neg (by norm_num : (100 : ℝ) ≠ 0)]
    rfl

theorem claim_C3_invalid_side_witness :
    (black_scholes_py 100 100 1 0.05 0.2 "straddle" =
        Except.error PyError.invalidSide ↔
      "straddle" ≠ "call" ∧ "straddle" ≠ "put") ∧
    black_scholes_py 100 100 1 0.05 0.2 "straddle" =
      Except.error PyError.invalidSide :=
  claim_C3_invalid_side 100 100 1 0.05 0.2 (by norm_num) "straddle"

/-- C4: at spot = 100, strike = 100, maturity = 1, rate = 0.05,
volatility = 0.2, the price operation returns approximately 10.45 for
the call and approximately 5.57 for the put, within absolute tolerance
0.01. -/
theorem claim_C4_reference_values (pc pp : ℝ)
    (hc : black_scholes 100 100 1 0.05 0.2 "call" = Except.ok pc)
    (hp : black_scholes 100 100 1 0.05 0.2 "put" = Except.ok pp) :
    |pc - 10.45| ≤ 0.01 ∧ |pp - 5.57| ≤ 0.01 := by
  rw [black_scholes_call, Except.ok.injEq] at hc
  rw [black_scholes_put, Except.ok.injEq] at hp
  subst hc
  subst hp
  exact ⟨bs_call_concrete_bounds, bs_put_concrete_bounds⟩

theorem claim_C4_reference_values_witness :
    |bs_call 100 100 1 0.05 0.2 - 10.45| ≤ 0.01 ∧
      |bs_put 100 100 1 0.05 0.2 - 5.57| ≤ 0.01 :=
  claim_C4_reference_values (bs_call 100 100 1 0.05 0.2)
    (bs_put 100 100 1 0.05 0.2) rfl rfl

/-- C5: for every input satisfying the invariants and a valid side, the
price operation returns an ordinary (finite) real value: the call and
put branches succeed with a real payload, and the denominator
`volatility * sqrt maturity` and the logarithm argument `spot / strike`
are strictly positive, so every intermediate operation is well defined
over the reals. -/
theorem claim_C5_finite_result (spot strike maturity rate volatility : ℝ)
    (hS : 0 < spot) (hK : 0 < strike) (hT : 0 < maturity)
    (hv : 0 < volatility) :
    black_scholes spot strike maturity rate volatility "call" =
      Except.ok (bs_call spot strike maturity rate volatility) ∧
    black_scholes spot strike maturity rate volatility "put" =
      Except.ok (bs_put spot strike maturity rate volatility) ∧
    0 < volatility * Real.sqrt maturity ∧ 0 < spot / strike :=
  ⟨rfl, rfl, mul_pos hv (Real.sqrt_pos.2 hT), div_pos hS hK⟩

theorem claim_C5_finite_result_witness :
    black_scholes 1 1 1 0 1 "call" = Except.ok (bs_call 1 1 1 0 1) ∧
    black_scholes 1 1 1 0 1 "put" = Except.ok (bs_put 1 1 1 0 1) ∧
    (0 : ℝ) < 1 * Real.sqrt 1 ∧ (0 : ℝ) < 1 / 1 :=
  claim_C5_finite_result 1 1 1 0 1 one_pos one_pos one_pos one_pos

/-- C6: with spot, strike, maturity, rate fixed and side = call, the
returned price is non-decreasing in volatility: for `0 < v1 ≤ v2` the
price at `v1` is at most the price at `v2`. -/
theorem claim_C6_monotone_in_volatility (spot strike maturity rate : ℝ)
    (hS : 0 < spot) (hK : 0 < strike) (hT : 0 < maturity)
    (v1 v2 : ℝ) (hv1 : 0 < v1) (hv12 : v1 ≤ v2) (p1 p2 : ℝ)
    (h1 : black_scholes spot strike maturity rate v1 "call" = Except.ok p1)
    (h2 : black_scholes spot strike maturity rate v2 "call" = Except.ok p2) :
    p1 ≤ p2 := by
  rw [black_scholes_call, Except.ok.injEq] at h1 h2
  subst h1
  subst h2
  have hv2 : 0 < v2 := lt_of_lt_of_le hv1 hv12
  rw [bs_call_eq_normCall spot strike maturity rate v1 hS hK hT hv1,
    bs_call_eq_normCall spot strike maturity rate v2 hS hK hT hv2]
  have hsT : 0 < Real.sqrt maturity := Real.sqrt_pos.2 hT
  have h := monotoneOn_normCall_a
    (Real.log (spot / strike) + rate * maturity)
    (mem_Ioi.2 (mul_pos hv1 hsT)) (mem_Ioi.2 (mul_pos hv2 hsT))
    (mul_le_mul_of_nonneg_right hv12 hsT.le)
  have hpos : 0 ≤ strike * Real.exp (-rate * maturity) := by positivity
  exact mul_le_mul_of_nonneg_left h hpos

theorem claim_C6_monotone_in_volatility_witness :
    bs_call 1 1 1 0 1 ≤ bs_call 1 1 1 0 2 :=
  claim_C6_monotone_in_volatility 1 1 1 0 one_pos one_pos one_pos 1 2
    one_pos one_le_two (bs_call 1 1 1 0 1) (bs_call 1 1 1 0 2) rfl rfl

/-- C7: the price operation is a pure function of its arguments, so two
evaluations at equal inputs are equal and the volatility sweep over the
fixed `linspace(0.1, 0.5, 100)` grid yields identical output sequences
on identical parameters. -/
theorem claim_C7_determinism (S K T r S' K' T' r' sigma : ℝ) (ot : String)
    (hS : S = S') (hK : K = K') (hT : T = T') (hr : r = r') :
    black_scholes S K T r sigma ot = black_scholes S' K' T' r' sigma ot ∧
    volatility_sweep S K T r = volatility_sweep S' K' T' r' := by
  subst hS
  subst hK
  subst hT
  subst hr
  exact ⟨rfl, rfl⟩

theorem claim_C7_determinism_witness :
    black_scholes 100 100 1 0.05 0.2 "call" =
      black_scholes 100 100 1 0.05 0.2 "call" ∧
    volatility_sweep 100 100 1 0.05 = volatility_sweep 100 100 1 0.05 :=
  claim_C7_determinism 100 100 1 0.05 100 100 1 0.05 0.2 "call"
    rfl rfl rfl rfl

/-- C8: as maturity tends to 0 from above with the other parameters
fixed and positive, the call branch value of the price operation tends
to `max (spot - strike) 0` and the put branch value tends to
`max (strike - spot) 0` (the intrinsic values); `bs_call`/`bs_put` are
exactly the payloads `black_scholes` returns for sides `"call"` and
`"put"`. -/
theorem claim_C8_maturity_limit (spot strike rate volatility : ℝ)
    (hS : 0 < spot) (hK : 0 < strike) (hv : 0 < volatility) :
    Tendsto (fun T => bs_call spot strike T rate volatility) (𝓝[>] 0)
      (𝓝 (max (spot - strike) 0)) ∧
    Tendsto (fun T => bs_put spot strike T rate volatility) (𝓝[>] 0)
      (𝓝 (max (strike - spot) 0)) :=
  ⟨tendsto_bs_call_maturity spot strike rate volatility hS hK hv,
    tendsto_bs_put_maturity spot strike rate volatility hS hK hv⟩

theorem claim_C8_maturity_limit_witness :
    Tendsto (fun T => bs_call 1 2 T 0 1) (𝓝[>] 0)
      (𝓝 (max ((1 : ℝ) - 2) 0)) ∧
    Tendsto (fun T => bs_put 1 2 T 0 1) (𝓝[>] 0)
      (𝓝 (max ((2 : ℝ) - 1) 0)) :=
  claim_C8_maturity_limit 1 2 0 1 one_pos two_pos one_pos

/-- C9: the redefined `black_scholes` of the example cell overwrites its
numeric parameters with the fixed local values S = 100, K = 100, T = 1,
r = 0.05, sigma = 0.2, so its result is independent of the numeric
arguments (any two argument tuples agreeing on `option_type` give the
same value, namely the price at the fixed parameters); the statements
after its `return` never execute and contribute nothing to the value. -/
theorem claim_C9_example_shadowing
    (S1 K1 T1 r1 v1 S2 K2 T2 r2 v2 : ℝ) (ot : String) :
    black_scholes_example S1 K1 T1 r1 v1 ot =
      black_scholes_example S2 K2 T2 r2 v2 ot ∧
    black_scholes_example S1 K1 T1 r1 v1 ot =
      black_scholes 100 100 1 0.05 0.2 ot :=
  ⟨rfl, rfl⟩

/-- C10: for every input satisfying the invariants, both the call and
the put price returned by the price operation are non-negative in exact
real arithmetic. -/
theorem claim_C10_price_nonneg (spot strike maturity rate volatility : ℝ)
    (hS : 0 < spot) (hK : 0 < strike) (hT : 0 < maturity)
    (hv : 0 < volatility) (pc pp : ℝ)
    (hc : black_scholes spot strike maturity rate volatility "call" =
      Except.ok pc)
    (hp : black_scholes spot strike maturity rate volatility "put" =
      Except.ok pp) :
    0 ≤ pc ∧ 0 ≤ pp := by
  rw [black_scholes_call, Except.ok.injEq] at hc
  rw [black_scholes_put, Except.ok.injEq] at hp
  subst hc
  subst hp
  have ha : 0 < volatility * Real.sqrt maturity :=
    mul_pos hv (Real.sqrt_pos.2 hT)
  constructor
  · rw [bs_call_eq_normCall spot strike maturity rate volatility hS hK hT hv]
    exact mul_nonneg (by positivity) (normCall_nonneg _ _ ha)
  · rw [bs_put_eq_normCall spot strike maturity rate volatility hS hK hT hv]
    exact mul_nonneg hS.le (normCall_nonneg _ _ ha)

theorem claim_C10_price_nonneg_witness :
    (0 : ℝ) ≤ bs_call 1 1 1 0 1 ∧ (0 : ℝ) ≤ bs_put 1 1 1 0 1 :=
  claim_C10_price_nonneg 1 1 1 0 1 one_pos one_pos one_pos one_pos
    (bs_call 1 1 1 0 1) (bs_put 1 1 1 0 1) rfl rfl

end BlackScholes
